import Mathlib

/-!
A verification development for `MergeTreeDataMerger` (the merge planner and
executor of the MergeTree engine): `selectPartsToMerge`, `mergeParts` and
`estimateDiskSpaceForMerge`.

Modelling conventions (shallow embedding of the C++ source):
* machine integers (`size_t`, `UInt64`, `UInt16`, `time_t`, `DayNum_t`) are
  modelled as `Nat`; the `int cur_age_in_sec` subtraction is modelled as `Int`
  (the quantities involved never overflow a 64-bit machine word in any state
  reachable from realistic part metadata);
* `double` arithmetic is modelled as exact rational arithmetic over `ℚ`;
  the libm call `std::log(x) / std::log(2)` is an oracle parameter `log2q`
  carried in the context, so every theorem below holds for an arbitrary
  interpretation of the logarithm;
* the C++ expression `cur_max / (cur_sum - cur_max)` divides by zero when
  `cur_sum == cur_max`; under IEEE semantics the quotient is `inf` or `nan`
  and the comparison with `ratio` is then false, which the embedding encodes
  by the explicit guard `cur_max < cur_sum`;
* `DateLUTSingleton` is an oracle: the values `toDayNum(time(0))`,
  `toFirstDayNumOfMonth(time(0))`, `toHourInaccurate(time(0))` and the
  function `toFirstDayNumOfMonth` on dates are context fields; the repeated
  calls to `time(0)` during one invocation are modelled as a single instant
  `now`;
* the `std::set` snapshot `data.getDataParts()` is modelled as the ordered
  list of its elements;
* the sentinel initialisations `size_t cur_longest_max = -1U` etc. are never
  read before being overwritten (they are only consulted when
  `cur_longest_len > max_count_from_left`, which forces a prior assignment),
  so the embedding replaces the sentinel triple by an `Option`;
* the streaming execution of `mergeParts` is I/O; its control flow is
  embedded over the two observations that decide it: the value of the
  `canceled` flag at the check after the write loop, and the writer's
  `marksCount()`.
-/

namespace MergeTree

/-- Metadata of one data part, mirroring the fields of
`MergeTreeData::DataPart` used by the merger. -/
structure Part where
  name : String
  left_month : Nat
  right_month : Nat
  left : Nat
  right : Nat
  left_date : Nat
  right_date : Nat
  size : Nat
  size_in_bytes : Nat
  level : Nat
  modification_time : Nat
  deriving DecidableEq, Repr, Inhabited

/-- The settings consulted by `selectPartsToMerge`. -/
structure Settings where
  max_rows_to_merge_parts : Nat
  max_rows_to_merge_parts_second : Nat
  merge_parts_at_night_inc : Nat
  max_parts_to_merge_at_once : Nat
  max_size_ratio_to_merge_parts : ℚ
  deriving Repr

/-- The ambient data of one `selectPartsToMerge` / `mergeParts` invocation:
settings, `data.index_granularity`, the date/time oracles, the available
disk space and the `can_merge` predicate argument. -/
structure Ctx where
  index_granularity : Nat
  settings : Settings
  /-- Oracle for `std::log x / std::log 2` on the doubles produced from `Nat`. -/
  log2q : Nat → ℚ
  /-- Oracle for `date_lut.toFirstDayNumOfMonth` on a date. -/
  monthOf : Nat → Nat
  now : Nat
  now_day : Nat
  now_month : Nat
  now_hour : Nat
  available_disk_space : Nat
  can_merge : Part → Part → Bool

/-- The three boolean parameters of `selectPartsToMerge`. -/
structure Flags where
  merge_anything_for_old_months : Bool
  aggressive : Bool
  only_small : Bool
  deriving DecidableEq, Repr

/-- The effective per-part row ceiling: `max_rows_to_merge_parts`, multiplied
by `merge_parts_at_night_inc` between 01:00 and 05:00, replaced by
`max_rows_to_merge_parts_second` when `only_small` is set. -/
def curMaxRows (ctx : Ctx) (fl : Flags) : Nat :=
  let base := ctx.settings.max_rows_to_merge_parts
  let base := if 1 ≤ ctx.now_hour ∧ ctx.now_hour ≤ 5 then
      base * ctx.settings.merge_parts_at_night_inc
    else base
  if fl.only_small then ctx.settings.max_rows_to_merge_parts_second else base

/-- The accumulator of the extension loop of `selectPartsToMerge`:
`cur_max`, `cur_min`, `cur_sum`, `cur_total_size`, `cur_len` and
`oldest_modification_time`. -/
structure RunState where
  cur_max : Nat
  cur_min : Nat
  cur_sum : Nat
  cur_total_size : Nat
  cur_len : Nat
  oldest_modification_time : Nat
  deriving DecidableEq, Repr

/-- The accumulator after the first part of a run. -/
def initState (p : Part) : RunState :=
  ⟨p.size, p.size, p.size, p.size_in_bytes, 1, p.modification_time⟩

/-- One step of the extension loop's accumulator updates (source lines
141–147); note that `oldest_modification_time` is updated with `std::max`. -/
def pushPart (st : RunState) (p : Part) : RunState :=
  ⟨max st.cur_max p.size, min st.cur_min p.size, st.cur_sum + p.size,
   st.cur_total_size + p.size_in_bytes, st.cur_len + 1,
   max st.oldest_modification_time p.modification_time⟩

/-- The accumulator state of the run consisting of `first` followed by `ext`. -/
def stateOf (first : Part) (ext : List Part) : RunState :=
  ext.foldl pushPart (initState first)

/-- The quantity `int cur_age_in_sec = time(0) - oldest_modification_time`. -/
def curAgeSec (ctx : Ctx) (st : RunState) : Int :=
  (ctx.now : Int) - (st.oldest_modification_time : Int)

/-- The dynamic minimal run length: 3 when the largest part exceeds about
1 GiB and the run's age is under six hours, else 2. -/
def minLenFor (ctx : Ctx) (st : RunState) : Nat :=
  if 1024*1024*1024 < st.cur_max * ctx.index_granularity * 150 ∧
      curAgeSec ctx st < 6*3600 then 3 else 2

/-- The dynamic balance threshold
`ratio = max(0.5, time_ratio_modifier * size_ratio_modifier *
max_size_ratio_to_merge_parts)`. -/
def mergeRatio (ctx : Ctx) (st : RunState) : ℚ :=
  let age : ℚ := (curAgeSec ctx st : ℚ)
  let time_ratio_modifier : ℚ := 1/2 + 9 * age / (3600*24*30 + age)
  let log_cur_sum : ℚ := ctx.log2q (st.cur_sum * ctx.index_granularity)
  let size_ratio_modifier : ℚ := max (1/4) (2 - 3 * log_cur_sum / (25 + log_cur_sum))
  max (1/2) (time_ratio_modifier * size_ratio_modifier *
    ctx.settings.max_size_ratio_to_merge_parts)

/-- The balance condition `cur_max / (cur_sum - cur_max) < ratio`; when
`cur_sum == cur_max` the IEEE quotient is `inf` (or `nan`) and the comparison
is false. -/
def ratioCondB (ctx : Ctx) (st : RunState) : Bool :=
  decide (st.cur_max < st.cur_sum) &&
    decide ((st.cur_max : ℚ) / ((st.cur_sum : ℚ) - (st.cur_max : ℚ)) < mergeRatio ctx st)

/-- The run-validity test of source lines 168–173: `cur_len >= min_len`, and
one of the balance condition, the old-month exemption, or `aggressive`. -/
def validAfter (ctx : Ctx) (fl : Flags) (is_old_month : Bool) (st : RunState) : Bool :=
  decide (minLenFor ctx st ≤ st.cur_len) &&
    (ratioCondB ctx st
      || (is_old_month && fl.merge_anything_for_old_months &&
            decide ((3600*24*15 : Int) < curAgeSec ctx st))
      || fl.aggressive)

/-- The disk-headroom test `available_disk_space > cur_total_size *
DISK_USAGE_COEFFICIENT_TO_SELECT` with `DISK_USAGE_COEFFICIENT_TO_SELECT = 1.6`. -/
def diskOK (ctx : Ctx) (st : RunState) : Bool :=
  decide ((st.cur_total_size : ℚ) * (8/5) < (ctx.available_disk_space : ℚ))

/-- Eligibility of a part to start a run (source lines 80–89): small enough
unless `aggressive`, and contained in a single month. -/
def eligFirst (ctx : Ctx) (fl : Flags) (p : Part) : Bool :=
  (decide (p.size * ctx.index_granularity ≤ curMaxRows ctx fl) || fl.aggressive)
    && decide (p.left_month = p.right_month)

/-- The extension checks of source lines 124–139: the predicate allows the
merge, the next part sits in the run's month, it is small enough unless
`aggressive`, and it does not intersect the previous part. -/
def canExtend (ctx : Ctx) (fl : Flags) (month : Nat) (prev next : Part) : Bool :=
  ctx.can_merge prev next
    && decide (next.left_month = next.right_month)
    && decide (next.left_month = month)
    && (decide (next.size * ctx.index_granularity ≤ curMaxRows ctx fl) || fl.aggressive)
    && decide (prev.right ≤ next.left)

/-- The `(cur_longest_max, cur_longest_min, cur_longest_len)` record of the
longest recorded run at one starting position. -/
structure Cand where
  cmax : Nat
  cmin : Nat
  len : Nat
  deriving DecidableEq, Repr

/-- The candidate record read off the accumulator. -/
def candOf (st : RunState) : Cand := ⟨st.cur_max, st.cur_min, st.cur_len⟩

/-- The test `is_old_month` of source line 107 for the month of the first
part of a run. -/
def isOldMonth (ctx : Ctx) (month : Nat) : Bool :=
  decide (1 ≤ ctx.now_day - ctx.now_month) && decide (month < ctx.now_month)

/-- The extension loop (source lines 112–188): starting from accumulator
`st` whose last part is `prev`, walk the remaining snapshot, stop at the
first failing extension check or at `max_parts_to_merge_at_once`, and record
the candidate of every state that passes the validity and disk tests. -/
def innerGo (ctx : Ctx) (fl : Flags) (month : Nat) (is_old : Bool) :
    List Part → Part → RunState → Option Cand → Option Cand
  | [], _, _, best => best
  | next :: rest, prev, st, best =>
    if st.cur_len < ctx.settings.max_parts_to_merge_at_once ∧
        canExtend ctx fl month prev next = true then
      let st2 := pushPart st next
      let best2 := if validAfter ctx fl is_old st2 && diskOK ctx st2 then
          some (candOf st2)
        else best
      innerGo ctx fl month is_old rest next st2 best2
    else best

/-- The strict comparison of source line 196:
`(cur_max, cur_min, -len) < (best_max, best_min, -best_len)` lexicographically. -/
def lexLt (a b : Cand) : Bool :=
  decide (a.cmax < b.cmax)
    || (decide (a.cmax = b.cmax)
        && (decide (a.cmin < b.cmin)
            || (decide (a.cmin = b.cmin) && decide (b.len < a.len))))

/-- The tie-break of source lines 195–197: an accepted candidate replaces the
current best when none exists yet or when it compares strictly smaller. -/
def better (ic : Nat × Cand) (best : Option (Nat × Cand)) : Bool :=
  match best with
  | none => true
  | some jb => lexLt ic.2 jb.2

/-- The outer loop over starting positions (source lines 73–206), carrying
`max_count_from_left` and the current best `(start index, candidate)`. -/
def outerGo (ctx : Ctx) (fl : Flags) :
    List Part → Nat → Nat → Option (Nat × Cand) → Option (Nat × Cand)
  | [], _, _, best => best
  | p :: rest, idx, mcfl, best =>
    let mcfl2 := mcfl - 1
    if eligFirst ctx fl p = true then
      match innerGo ctx fl p.left_month (isOldMonth ctx p.left_month) rest p
          (initState p) none with
      | some c =>
        if mcfl2 < c.len then
          outerGo ctx fl rest (idx+1) c.len
            (if better (idx, c) best then some (idx, c) else best)
        else
          outerGo ctx fl rest (idx+1) mcfl2 best
      | none => outerGo ctx fl rest (idx+1) mcfl2 best
    else outerGo ctx fl rest (idx+1) mcfl2 best

/-- `selectPartsToMerge`, returning the selected run (the `max_len` parts
from `best_begin`) or `none`. -/
def selectPartsToMerge (ctx : Ctx) (fl : Flags) (snapshot : List Part) :
    Option (List Part) :=
  match outerGo ctx fl snapshot 0 0 none with
  | some ic => some ((snapshot.drop ic.1).take ic.2.len)
  | none => none

/-- `selectPartsToMerge` with the in-out vector `parts` made explicit: the
C++ signature takes `parts` by reference, clears and fills it only in the
`found` branch, and returns `found`. -/
def selectPartsToMergeInto (ctx : Ctx) (fl : Flags) (snapshot parts : List Part) :
    Bool × List Part :=
  match outerGo ctx fl snapshot 0 0 none with
  | some ic => (true, (snapshot.drop ic.1).take ic.2.len)
  | none => (false, parts)

/-- The list of candidates the outer loop accepts (those surviving the
`cur_longest_len > max_count_from_left` filter), in traversal order; the
selector's answer is the tie-break minimum of this list. -/
def acceptedGo (ctx : Ctx) (fl : Flags) : List Part → Nat → Nat → List (Nat × Cand)
  | [], _, _ => []
  | p :: rest, idx, mcfl =>
    let mcfl2 := mcfl - 1
    if eligFirst ctx fl p = true then
      match innerGo ctx fl p.left_month (isOldMonth ctx p.left_month) rest p
          (initState p) none with
      | some c =>
        if mcfl2 < c.len then (idx, c) :: acceptedGo ctx fl rest (idx+1) c.len
        else acceptedGo ctx fl rest (idx+1) mcfl2
      | none => acceptedGo ctx fl rest (idx+1) mcfl2
    else acceptedGo ctx fl rest (idx+1) mcfl2

/-- The accepted candidates of a whole snapshot. -/
def acceptedCands (ctx : Ctx) (fl : Flags) (snapshot : List Part) : List (Nat × Cand) :=
  acceptedGo ctx fl snapshot 0 0

/-- The conjunction of the extension checks along a list of parts, starting
from a given previous part. -/
def chainFrom (ctx : Ctx) (fl : Flags) (month : Nat) : Part → List Part → Bool
  | _, [] => true
  | prev, q :: rest => canExtend ctx fl month prev q && chainFrom ctx fl month q rest

/-- The declarative candidate-run predicate at start `i` and length `len`:
the first part is eligible, `2 ≤ len ≤ max_parts_to_merge_at_once`, the run
fits in the snapshot, every extension check holds along it, and the validity
test passes at its full state; `check_disk` additionally requires the
disk-headroom test.  With `check_disk := false` this is the specification's
"Run validity" notion; with `check_disk := true` it also demands
acceptability on disk. -/
def candRunB (ctx : Ctx) (fl : Flags) (snapshot : List Part) (i len : Nat)
    (check_disk : Bool) : Bool :=
  match snapshot.drop i with
  | [] => false
  | p :: rest =>
    let ext := rest.take (len - 1)
    eligFirst ctx fl p
      && decide (2 ≤ len)
      && decide (len ≤ ctx.settings.max_parts_to_merge_at_once)
      && decide (len - 1 ≤ rest.length)
      && chainFrom ctx fl p.left_month p ext
      && validAfter ctx fl (isOldMonth ctx p.left_month) (stateOf p ext)
      && (!check_disk || diskOK ctx (stateOf p ext))

/-- Accumulated `size_in_bytes` of a list of parts (the loop of
`estimateDiskSpaceForMerge`). -/
def sumBytes (parts : List Part) : Nat :=
  parts.foldl (fun r p => r + p.size_in_bytes) 0

/-- `estimateDiskSpaceForMerge`: the byte sum scaled by
`DISK_USAGE_COEFFICIENT_TO_RESERVE = 1.4`; the C++ `static_cast<size_t>`
truncates the (nonnegative) double product, i.e. takes the floor, modelled
exactly as `sum * 7 / 5` in `Nat`. -/
def estimateDiskSpaceForMerge (parts : List Part) : Nat :=
  sumBytes parts * 7 / 5

/-- Modelled from the spec: `MergeTreeData::getPartName` is declared outside
this file; the specification only states that the name is an identifier
derived from the written fields.  We model it as the underscore-joined field
values, which is in particular a nonempty string. -/
def getPartName (left_date right_date left right level : Nat) : String :=
  "part-" ++ toString left_date ++ "_" ++ toString right_date ++ "_"
    ++ toString left ++ "_" ++ toString right ++ "_" ++ toString level

/-- One step of the metadata loop of `mergeParts` (source lines 248–253),
folding `(level, left_date, right_date)`. -/
def metaFold (acc : Nat × Nat × Nat) (p : Part) : Nat × Nat × Nat :=
  (max acc.1 p.level, min acc.2.1 p.left_date, max acc.2.2 p.right_date)

/-- The metadata of the output part of `mergeParts` (source lines 242–258):
`left_date` starts at `numeric_limits<UInt16>::max() = 65535`, `right_date`
at 0, `level` at 0; the loop folds over the inputs and `level` is then
incremented; `left`/`right` come from the first/last input; the months are
recomputed from the dates through the date LUT.  The fields filled later
(`size`, `modification_time`) and the unused `size_in_bytes` are 0 here. -/
def mergedPartMeta (ctx : Ctx) (parts : List Part) : Part :=
  let acc := parts.foldl metaFold (0, 65535, 0)
  let level := acc.1 + 1
  let left_date := acc.2.1
  let right_date := acc.2.2
  { name := getPartName left_date right_date parts.headI.left parts.getLastI.right level
    left_month := ctx.monthOf left_date
    right_month := ctx.monthOf right_date
    left := parts.headI.left
    right := parts.getLastI.right
    left_date := left_date
    right_date := right_date
    size := 0
    size_in_bytes := 0
    level := level
    modification_time := 0 }

/-- The row-combining mode of the table. -/
inductive MergeMode
  | Ordinary
  | Collapsing
  | Summing
  deriving DecidableEq, Repr

/-- The two observations that decide the post-loop control flow of
`mergeParts`: the value of the `canceled` flag at the check after the write
loop, and `to->marksCount()` of the written output. -/
structure ExecObs where
  canceled : Bool
  marks : Nat
  deriving DecidableEq, Repr

/-- The control flow of `mergeParts` after the write loop (source lines
301–335).  The result is `Except`: `error` models the thrown
`LOGICAL_ERROR`; an `ok (name, replaced)` pair returns the name handed to
the caller together with whether `data.replaceParts` was executed. -/
def mergeParts (ctx : Ctx) (mode : MergeMode) (obs : ExecObs) (parts : List Part) :
    Except String (String × Bool) :=
  if obs.canceled then Except.ok ("", false)
  else if obs.marks = 0 ∧ mode = MergeMode.Ordinary then
    Except.error "Empty part after merge"
  else if obs.marks = 0 then Except.ok ("", false)
  else Except.ok ((mergedPartMeta ctx parts).name, true)

/-- The longest recorded candidate at starting position `i` of the snapshot
(the `(cur_longest_max, cur_longest_min, cur_longest_len)` record after the
extension loop), or `none` when the first part is ineligible or nothing was
recorded. -/
def startCand (ctx : Ctx) (fl : Flags) (snapshot : List Part) (i : Nat) : Option Cand :=
  match snapshot.drop i with
  | [] => none
  | p :: rest =>
    if eligFirst ctx fl p = true then
      innerGo ctx fl p.left_month (isOldMonth ctx p.left_month) rest p (initState p) none
    else none

/-- The length of the longest recorded candidate at position `i` (0 when
there is none); this is the value merged into `max_count_from_left`. -/
def startLen (ctx : Ctx) (fl : Flags) (snapshot : List Part) (i : Nat) : Nat :=
  (startCand ctx fl snapshot i).elim 0 Cand.len

/-- The largest `size` in a run of parts. -/
def runMaxSize (l : List Part) : Nat :=
  l.foldl (fun a p => max a p.size) 0

/-- The smallest `size` in a nonempty run of parts (0 for the empty run). -/
def runMinSize (l : List Part) : Nat :=
  match l with
  | [] => 0
  | p :: t => t.foldl (fun a q => min a q.size) p.size

/-! Concrete instances used by the witnesses and counterexamples below.

The `w` scenario is a plain successful selection: two small single-month
parts, `aggressive` set, ample disk.

The `a` scenario exercises the run-age computation: part `a1` was modified
1999900 seconds before `now` while `a2` was modified 100 seconds before
`now`; the partition month (0) precedes the current month (400), the
old-month flag is set and `max_size_ratio_to_merge_parts = 0` keeps the
balance branch false under any logarithm oracle.

The `b` scenario exercises the dynamic minimal length: two parts of 1000
marks at granularity 8192 (1000·8192·150 > 2³⁰) modified at `now`, so
`min_len = 3`, with `aggressive` set and every other rule satisfied.

The `d` scenario exercises maximality against the disk rule: three small
parts where `d3` is a gigabyte on disk, so `[d1, d2]` passes the disk test
but `[d1, d2, d3]` (and `[d2, d3]`) does not, with `aggressive` set. -/

/-- Settings of the `w` scenario. -/
def wS : Settings := ⟨1000, 100, 10, 5, 2⟩

/-- Context of the `w` scenario. -/
def wCtx : Ctx := ⟨1, wS, fun _ => 0, fun _ => 0, 0, 0, 0, 0, 1000, fun _ _ => true⟩

/-- Flags of the `w` scenario (`aggressive` only). -/
def wFl : Flags := ⟨false, true, false⟩

/-- First part of the `w` scenario. -/
def w1 : Part := ⟨"w1", 0, 0, 0, 1, 5, 6, 10, 10, 0, 0⟩

/-- Second part of the `w` scenario. -/
def w2 : Part := ⟨"w2", 0, 0, 2, 3, 6, 7, 10, 10, 1, 0⟩

/-- Settings of the `a` scenario (`max_size_ratio_to_merge_parts = 0`). -/
def aS : Settings := ⟨1000, 100, 10, 5, 0⟩

/-- Context of the `a` scenario: `now = 2000000`, current day 401 in month 400. -/
def aCtx : Ctx := ⟨1, aS, fun _ => 0, fun _ => 0, 2000000, 401, 400, 0, 1000000, fun _ _ => true⟩

/-- Flags of the `a` scenario (`merge_anything_for_old_months` only). -/
def aFl : Flags := ⟨true, false, false⟩

/-- Old part of the `a` scenario: modified 1999900 seconds ago. -/
def a1 : Part := ⟨"a1", 0, 0, 0, 1, 5, 6, 10, 10, 0, 100⟩

/-- Fresh part of the `a` scenario: modified 100 seconds ago. -/
def a2 : Part := ⟨"a2", 0, 0, 2, 3, 6, 7, 1, 10, 0, 1999900⟩

/-- Settings of the `b` scenario. -/
def bS : Settings := ⟨1000, 100, 10, 5, 2⟩

/-- Context of the `b` scenario: granularity 8192. -/
def bCtx : Ctx := ⟨8192, bS, fun _ => 0, fun _ => 0, 2000000, 0, 0, 0, 1000000, fun _ _ => true⟩

/-- Flags of the `b` scenario (`aggressive` only). -/
def bFl : Flags := ⟨false, true, false⟩

/-- First large young part of the `b` scenario. -/
def b1 : Part := ⟨"b1", 0, 0, 0, 1, 5, 6, 1000, 10, 0, 2000000⟩

/-- Second large young part of the `b` scenario. -/
def b2 : Part := ⟨"b2", 0, 0, 2, 3, 6, 7, 1000, 10, 0, 2000000⟩

/-- Settings of the `d` scenario. -/
def dS : Settings := ⟨1000, 100, 10, 5, 2⟩

/-- Context of the `d` scenario: only 100 bytes of free disk. -/
def dCtx : Ctx := ⟨1, dS, fun _ => 0, fun _ => 0, 0, 0, 0, 0, 100, fun _ _ => true⟩

/-- Flags of the `d` scenario (`aggressive` only). -/
def dFl : Flags := ⟨false, true, false⟩

/-- First tiny part of the `d` scenario. -/
def d1 : Part := ⟨"d1", 0, 0, 0, 1, 5, 6, 1, 1, 0, 0⟩

/-- Second tiny part of the `d` scenario. -/
def d2 : Part := ⟨"d2", 0, 0, 2, 3, 6, 7, 1, 1, 0, 0⟩

/-- Third part of the `d` scenario: tiny in marks, huge on disk. -/
def d3 : Part := ⟨"d3", 0, 0, 4, 5, 7, 8, 1, 1000000000, 0, 0⟩

/-! ### Componentwise description of the extension-loop accumulator -/

theorem foldPush_cur_len (ext : List Part) : ∀ st : RunState,
    (ext.foldl pushPart st).cur_len = st.cur_len + ext.length := by
  induction ext with
  | nil => intro st; simp
  | cons p t ih =>
    intro st
    rw [List.foldl_cons, ih]
    simp [pushPart]
    omega

theorem foldPush_total (ext : List Part) : ∀ st : RunState,
    (ext.foldl pushPart st).cur_total_size =
      st.cur_total_size + (ext.map Part.size_in_bytes).sum := by
  induction ext with
  | nil => intro st; simp
  | cons p t ih =>
    intro st
    rw [List.foldl_cons, ih]
    simp [pushPart]
    omega

theorem foldPush_mod (ext : List Part) : ∀ st : RunState,
    (ext.foldl pushPart st).oldest_modification_time =
      ext.foldl (fun a p => max a p.modification_time) st.oldest_modification_time := by
  induction ext with
  | nil => intro st; simp
  | cons p t ih =>
    intro st
    rw [List.foldl_cons, ih, List.foldl_cons]
    rfl

theorem foldPush_max (ext : List Part) : ∀ st : RunState,
    (ext.foldl pushPart st).cur_max =
      ext.foldl (fun a p => max a p.size) st.cur_max := by
  induction ext with
  | nil => intro st; simp
  | cons p t ih =>
    intro st
    rw [List.foldl_cons, ih, List.foldl_cons]
    rfl

theorem foldPush_min (ext : List Part) : ∀ st : RunState,
    (ext.foldl pushPart st).cur_min =
      ext.foldl (fun a q => min a q.size) st.cur_min := by
  induction ext with
  | nil => intro st; simp
  | cons p t ih =>
    intro st
    rw [List.foldl_cons, ih, List.foldl_cons]
    rfl

/-! ### Folded maxima and minima over `Nat` -/

theorem foldl_max_spec {α : Type} (f : α → Nat) (l : List α) : ∀ a : Nat,
    a ≤ l.foldl (fun x p => max x (f p)) a ∧
    (∀ p ∈ l, f p ≤ l.foldl (fun x p => max x (f p)) a) ∧
    (l.foldl (fun x p => max x (f p)) a = a ∨
      ∃ p ∈ l, l.foldl (fun x p => max x (f p)) a = f p) := by
  induction l with
  | nil => intro a; simp
  | cons q t ih =>
    intro a
    obtain ⟨h1, h2, h3⟩ := ih (max a (f q))
    rw [List.foldl_cons]
    refine ⟨le_trans (le_max_left _ _) h1, ?_, ?_⟩
    · intro p hp
      rcases List.mem_cons.mp hp with rfl | hp
      · exact le_trans (le_max_right _ _) h1
      · exact h2 p hp
    · rcases h3 with he | ⟨p, hp, he⟩
      · rcases Nat.le_total (f q) a with hle | hle
        · left; rw [he, Nat.max_eq_left hle]
        · right
          exact ⟨q, List.mem_cons_self _ _, by rw [he, Nat.max_eq_right hle]⟩
      · exact Or.inr ⟨p, List.mem_cons_of_mem _ hp, he⟩

theorem foldl_min_spec {α : Type} (f : α → Nat) (l : List α) : ∀ a : Nat,
    l.foldl (fun x p => min x (f p)) a ≤ a ∧
    (∀ p ∈ l, l.foldl (fun x p => min x (f p)) a ≤ f p) ∧
    (l.foldl (fun x p => min x (f p)) a = a ∨
      ∃ p ∈ l, l.foldl (fun x p => min x (f p)) a = f p) := by
  induction l with
  | nil => intro a; simp
  | cons q t ih =>
    intro a
    obtain ⟨h1, h2, h3⟩ := ih (min a (f q))
    rw [List.foldl_cons]
    refine ⟨le_trans h1 (min_le_left _ _), ?_, ?_⟩
    · intro p hp
      rcases List.mem_cons.mp hp with rfl | hp
      · exact le_trans h1 (min_le_right _ _)
      · exact h2 p hp
    · rcases h3 with he | ⟨p, hp, he⟩
      · rcases Nat.le_total a (f q) with hle | hle
        · left; rw [he, Nat.min_eq_left hle]
        · right
          exact ⟨q, List.mem_cons_self _ _, by rw [he, Nat.min_eq_right hle]⟩
      · exact Or.inr ⟨p, List.mem_cons_of_mem _ hp, he⟩

/-! ### C1: which age do the dynamic thresholds use? -/

/-- C1 (amended): the age consumed by the dynamic thresholds of
`selectPartsToMerge` is `now - M` where `M` is the **largest**
`modification_time` over the run (the extension loop folds
`oldest_modification_time` with `std::max`, source line 141), i.e. the age
of the *most recently* modified part of the run — not of its oldest part. -/
theorem c1_age_uses_newest_modification (ctx : Ctx) (first : Part) (ext : List Part) :
    ∃ q, q ∈ first :: ext ∧
      (stateOf first ext).oldest_modification_time = q.modification_time ∧
      (∀ p ∈ first :: ext, p.modification_time ≤ q.modification_time) ∧
      curAgeSec ctx (stateOf first ext) =
        (ctx.now : Int) - (q.modification_time : Int) := by
  have hmod : (stateOf first ext).oldest_modification_time =
      ext.foldl (fun a p => max a p.modification_time) first.modification_time := by
    simpa [stateOf, initState] using foldPush_mod ext (initState first)
  obtain ⟨h1, h2, h3⟩ := foldl_max_spec Part.modification_time ext first.modification_time
  rcases h3 with he | ⟨p, hp, he⟩
  · refine ⟨first, List.mem_cons_self _ _, by rw [hmod, he], ?_, by rw [curAgeSec, hmod, he]⟩
    intro p hp
    rcases List.mem_cons.mp hp with rfl | hp
    · exact le_refl _
    · have := h2 p hp
      omega
  · refine ⟨p, List.mem_cons_of_mem _ hp, by rw [hmod, he], ?_, by rw [curAgeSec, hmod, he]⟩
    intro p2 hp2
    rcases List.mem_cons.mp hp2 with rfl | hp2
    · have := h1; omega
    · have := h2 p2 hp2; omega

/-- C1 (counterexample): in the `a` scenario the age used by the thresholds
is 100 seconds (the age of the most recently modified part) and not
`now - min(modification_time) = 1999900` seconds; consequently, although the
partition month is old, the old-month flag is set, the run passes the
eligibility, overlap and disk rules, and its *oldest* part is more than 15
days old, the code judges the run to be younger than 15 days and selects
nothing. -/
theorem c1_age_counterexample :
    curAgeSec aCtx (stateOf a1 [a2]) ≠
      (aCtx.now : Int) - (min a1.modification_time a2.modification_time : Nat) ∧
    (3600*24*15 : Int) <
      (aCtx.now : Int) - (min a1.modification_time a2.modification_time : Nat) ∧
    ¬ (3600*24*15 : Int) < curAgeSec aCtx (stateOf a1 [a2]) ∧
    isOldMonth aCtx a1.left_month = true ∧
    aFl.merge_anything_for_old_months = true ∧
    eligFirst aCtx aFl a1 = true ∧
    canExtend aCtx aFl a1.left_month a1 a2 = true ∧
    diskOK aCtx (stateOf a1 [a2]) = true ∧
    selectPartsToMerge aCtx aFl [a1, a2] = none := by
  refine ⟨by decide, by decide, by decide, by decide, rfl, by decide, by decide,
    ?_, ?_⟩
  · norm_num [diskOK, stateOf, initState, pushPart, aCtx, a1, a2]
  · norm_num [selectPartsToMerge, outerGo, innerGo, eligFirst, canExtend, validAfter,
      minLenFor, curAgeSec, curMaxRows, isOldMonth, initState, pushPart, candOf,
      better, lexLt, diskOK, ratioCondB, mergeRatio, aCtx, aFl, aS, a1, a2]

/-! ### C2: does `aggressive` bypass the dynamic minimal length? -/

/-- C2 (amended): when `aggressive` is set the validity test reduces to the
dynamic minimal-length requirement `min_len ≤ cur_len` alone — the ratio and
old-month disjuncts become irrelevant, but `min_len` (which can be 3) still
applies to every branch, including the aggressive and old-month ones. -/
theorem c2_aggressive_still_needs_min_len (ctx : Ctx) (fl : Flags) (is_old : Bool)
    (st : RunState) (ha : fl.aggressive = true) :
    validAfter ctx fl is_old st = decide (minLenFor ctx st ≤ st.cur_len) := by
  simp [validAfter, ha]

/-- Witness for `c2_aggressive_still_needs_min_len` at the `b` scenario. -/
theorem c2_aggressive_still_needs_min_len_witness :
    bFl.aggressive = true ∧
    validAfter bCtx bFl (isOldMonth bCtx 0) (stateOf b1 [b2]) =
      decide (minLenFor bCtx (stateOf b1 [b2]) ≤ (stateOf b1 [b2]).cur_len) :=
  ⟨rfl, c2_aggressive_still_needs_min_len bCtx bFl (isOldMonth bCtx 0) (stateOf b1 [b2]) rfl⟩

/-- C2 (counterexample): in the `b` scenario the run `[b1, b2]` has length 2,
passes the per-part eligibility, partition, overlap and disk rules, and
`aggressive` is set — yet `min_len = 3` (large young parts), the validity
test rejects it, and the selector returns nothing; an aggressive run of
length 2 is *not* always valid. -/
theorem c2_counterexample :
    bFl.aggressive = true ∧
    eligFirst bCtx bFl b1 = true ∧
    eligFirst bCtx bFl b2 = true ∧
    canExtend bCtx bFl b1.left_month b1 b2 = true ∧
    diskOK bCtx (stateOf b1 [b2]) = true ∧
    (stateOf b1 [b2]).cur_len = 2 ∧
    minLenFor bCtx (stateOf b1 [b2]) = 3 ∧
    validAfter bCtx bFl (isOldMonth bCtx b1.left_month) (stateOf b1 [b2]) = false ∧
    selectPartsToMerge bCtx bFl [b1, b2] = none := by
  refine ⟨rfl, by decide, by decide, by decide,
    by norm_num [diskOK, stateOf, initState, pushPart, bCtx, b1, b2],
    by decide, by decide, by decide, by decide⟩

/-! ### C3: rounding of the reservation estimate -/

/-- C3 (amended): `estimateDiskSpaceForMerge` returns the **floor** (the
`static_cast<size_t>` truncation) of `Σ size_in_bytes × 1.4`, not its
ceiling. -/
theorem c3_estimate_is_floor (parts : List Part) :
    estimateDiskSpaceForMerge parts = Nat.floor ((sumBytes parts : ℚ) * (7/5)) := by
  have h : (sumBytes parts : ℚ) * (7/5) = ((sumBytes parts * 7 : ℕ) : ℚ) / ((5:ℕ) : ℚ) := by
    push_cast
    ring
  rw [estimateDiskSpaceForMerge, h, Nat.floor_div_nat, Nat.floor_natCast]

/-- C3 (counterexample): for a single part of 1 byte the sum is 1,
`ceil(1 × 1.4) = 2`, but the function returns 1. -/
theorem c3_counterexample :
    estimateDiskSpaceForMerge [d1] = 1 ∧ sumBytes [d1] = 1 ∧
    Nat.ceil ((sumBytes [d1] : ℚ) * (7/5)) = 2 := by
  refine ⟨rfl, rfl, ?_⟩
  rw [show sumBytes [d1] = 1 from rfl]
  rw [show ((1:ℕ) : ℚ) * (7/5) = 7/5 by norm_num]
  rw [Nat.ceil_eq_iff (by norm_num)]
  norm_num

/-! ### C9: effects of `mergeParts` -/

theorem getPartName_ne_empty (a b c d e : Nat) : getPartName a b c d e ≠ "" := by
  intro h
  have hlen := congrArg String.length h
  rw [getPartName] at hlen
  simp only [String.length_append] at hlen
  have h5 : String.length "part-" = 5 := rfl
  rw [h5] at hlen
  simp at hlen

/-- C9: `mergeParts` touches the part set only on full success.  If the
cancel flag is observed it returns the empty name with `replaceParts` not
called; a zero-mark output in `Ordinary` mode raises the logic error; a
zero-mark output in any other mode returns the empty name without
publishing; otherwise it publishes and returns the (nonempty) new name; and
a returned name is nonempty exactly when `replaceParts` was called. -/
theorem c9_merge_effects (ctx : Ctx) (mode : MergeMode) (obs : ExecObs)
    (parts : List Part) :
    (obs.canceled = true → mergeParts ctx mode obs parts = Except.ok ("", false)) ∧
    (obs.canceled = false → obs.marks = 0 → mode = MergeMode.Ordinary →
      mergeParts ctx mode obs parts = Except.error "Empty part after merge") ∧
    (obs.canceled = false → obs.marks = 0 → mode ≠ MergeMode.Ordinary →
      mergeParts ctx mode obs parts = Except.ok ("", false)) ∧
    (obs.canceled = false → 0 < obs.marks →
      mergeParts ctx mode obs parts =
        Except.ok ((mergedPartMeta ctx parts).name, true)) ∧
    (∀ nm rep, mergeParts ctx mode obs parts = Except.ok (nm, rep) →
      (nm ≠ "" ↔ rep = true)) := by
  refine ⟨?_, ?_, ?_, ?_, ?_⟩
  · intro hc; simp [mergeParts, hc]
  · intro hc hm hmode; simp [mergeParts, hc, hm, hmode]
  · intro hc hm hmode; simp [mergeParts, hc, hm, hmode]
  · intro hc hm; simp [mergeParts, hc, Nat.pos_iff_ne_zero.mp hm]
  · intro nm rep h
    rw [mergeParts] at h
    by_cases hc : obs.canceled
    · simp [hc] at h
      simp [h.1, h.2]
    · simp [hc] at h
      by_cases hm : obs.marks = 0
      · by_cases hmode : mode = MergeMode.Ordinary
        · simp [hm, hmode] at h
        · simp [hm, hmode] at h
          simp [h.1, h.2]
      · simp [hm] at h
        constructor
        · intro _
          exact h.2
        · intro _
          rw [← h.1]
          exact getPartName_ne_empty _ _ _ _ _

/-- Witness for `c9_merge_effects`: the three non-publishing outcomes at
concrete observations. -/
theorem c9_merge_effects_witness :
    mergeParts wCtx MergeMode.Ordinary ⟨true, 5⟩ [w1, w2] = Except.ok ("", false) ∧
    mergeParts wCtx MergeMode.Ordinary ⟨false, 0⟩ [w1, w2] =
      Except.error "Empty part after merge" ∧
    mergeParts wCtx MergeMode.Collapsing ⟨false, 0⟩ [w1, w2] = Except.ok ("", false) :=
  ⟨(c9_merge_effects wCtx MergeMode.Ordinary ⟨true, 5⟩ [w1, w2]).1 rfl,
   (c9_merge_effects wCtx MergeMode.Ordinary ⟨false, 0⟩ [w1, w2]).2.1 rfl rfl rfl,
   (c9_merge_effects wCtx MergeMode.Collapsing ⟨false, 0⟩ [w1, w2]).2.2.1 rfl rfl
     (by decide)⟩

/-! ### C10: the out-parameter is untouched when nothing is selected -/

/-- C10: when `selectPartsToMerge` returns `false` the caller's `parts`
vector is returned exactly as it was passed in; it is cleared and refilled
only in the `found` branch. -/
theorem c10_not_found_leaves_parts (ctx : Ctx) (fl : Flags)
    (snapshot parts : List Part)
    (h : (selectPartsToMergeInto ctx fl snapshot parts).1 = false) :
    (selectPartsToMergeInto ctx fl snapshot parts).2 = parts := by
  unfold selectPartsToMergeInto at h ⊢
  cases houter : outerGo ctx fl snapshot 0 0 none with
  | none => simp [houter]
  | some ic => rw [houter] at h; simp at h

/-- Witness for `c10_not_found_leaves_parts` at the `b` scenario (where
nothing is selected) with a nonempty initial vector. -/
theorem c10_not_found_leaves_parts_witness :
    (selectPartsToMergeInto bCtx bFl [b1, b2] [w1]).1 = false ∧
    (selectPartsToMergeInto bCtx bFl [b1, b2] [w1]).2 = [w1] :=
  ⟨by decide, c10_not_found_leaves_parts bCtx bFl [b1, b2] [w1] (by decide)⟩

/-! ### C8: metadata of the merged part -/

theorem metaFold_decomp (l : List Part) : ∀ acc : Nat × Nat × Nat,
    l.foldl metaFold acc =
      (l.foldl (fun a p => max a p.level) acc.1,
       l.foldl (fun a p => min a p.left_date) acc.2.1,
       l.foldl (fun a p => max a p.right_date) acc.2.2) := by
  induction l with
  | nil => intro acc; rfl
  | cons q t ih =>
    intro acc
    rw [List.foldl_cons, ih, List.foldl_cons, List.foldl_cons, List.foldl_cons]
    rfl

/-- C8: for a nonempty run the merged part's `left`/`right` are those of the
first/last input, `left_date` is the minimum input `left_date`, `right_date`
the maximum input `right_date`, and `level` is one more than the maximum
input level.  (The hypothesis records that the `UInt16` dates are below the
`numeric_limits<UInt16>::max()` seed of the fold.) -/
theorem c8_merged_part_metadata (ctx : Ctx) (first : Part) (rest : List Part)
    (h16 : ∀ p ∈ first :: rest, p.left_date ≤ 65535) :
    (mergedPartMeta ctx (first :: rest)).left = first.left ∧
    (mergedPartMeta ctx (first :: rest)).right =
      ((first :: rest).getLast (List.cons_ne_nil first rest)).right ∧
    ((mergedPartMeta ctx (first :: rest)).left_date ∈ (first :: rest).map Part.left_date ∧
      ∀ p ∈ first :: rest, (mergedPartMeta ctx (first :: rest)).left_date ≤ p.left_date) ∧
    ((mergedPartMeta ctx (first :: rest)).right_date ∈ (first :: rest).map Part.right_date ∧
      ∀ p ∈ first :: rest, p.right_date ≤ (mergedPartMeta ctx (first :: rest)).right_date) ∧
    ((∃ p ∈ first :: rest, (mergedPartMeta ctx (first :: rest)).level = p.level + 1) ∧
      ∀ p ∈ first :: rest, p.level + 1 ≤ (mergedPartMeta ctx (first :: rest)).level) := by
  have hld : (mergedPartMeta ctx (first :: rest)).left_date =
      (first :: rest).foldl (fun a p => min a p.left_date) 65535 := by
    rw [show (mergedPartMeta ctx (first :: rest)).left_date =
      ((first :: rest).foldl metaFold (0, 65535, 0)).2.1 from rfl, metaFold_decomp]
  have hrd : (mergedPartMeta ctx (first :: rest)).right_date =
      (first :: rest).foldl (fun a p => max a p.right_date) 0 := by
    rw [show (mergedPartMeta ctx (first :: rest)).right_date =
      ((first :: rest).foldl metaFold (0, 65535, 0)).2.2 from rfl, metaFold_decomp]
  have hlv : (mergedPartMeta ctx (first :: rest)).level =
      (first :: rest).foldl (fun a p => max a p.level) 0 + 1 := by
    rw [show (mergedPartMeta ctx (first :: rest)).level =
      ((first :: rest).foldl metaFold (0, 65535, 0)).1 + 1 from rfl, metaFold_decomp]
  refine ⟨rfl, ?_, ?_, ?_, ?_⟩
  · show (first :: rest).getLastI.right = _
    rw [List.getLastI_eq_getLast?,
      List.getLast?_eq_getLast _ (List.cons_ne_nil first rest)]
  · obtain ⟨hle, hb, hmem⟩ := foldl_min_spec Part.left_date (first :: rest) 65535
    rw [hld]
    rcases hmem with he | ⟨p, hp, he⟩
    · have h1 : first.left_date ≤ 65535 := h16 first (List.mem_cons_self _ _)
      have h2 := hb first (List.mem_cons_self _ _)
      refine ⟨?_, hb⟩
      have : first.left_date = (first :: rest).foldl (fun a p => min a p.left_date) 65535 := by
        omega
      exact this ▸ List.mem_map_of_mem Part.left_date (List.mem_cons_self _ _)
    · exact ⟨he ▸ List.mem_map_of_mem Part.left_date hp, hb⟩
  · obtain ⟨h0, hb, hmem⟩ := foldl_max_spec Part.right_date (first :: rest) 0
    rw [hrd]
    rcases hmem with he | ⟨p, hp, he⟩
    · have h2 := hb first (List.mem_cons_self _ _)
      have : first.right_date = (first :: rest).foldl (fun a p => max a p.right_date) 0 := by
        omega
      exact ⟨this ▸ List.mem_map_of_mem Part.right_date (List.mem_cons_self _ _), hb⟩
    · exact ⟨he ▸ List.mem_map_of_mem Part.right_date hp, hb⟩
  · obtain ⟨h0, hb, hmem⟩ := foldl_max_spec Part.level (first :: rest) 0
    constructor
    · rcases hmem with he | ⟨p, hp, he⟩
      · refine ⟨first, List.mem_cons_self _ _, ?_⟩
        have h2 := hb first (List.mem_cons_self _ _)
        omega
      · exact ⟨p, hp, by rw [hlv, he]⟩
    · intro p hp
      have := hb p hp
      omega

/-- Witness for `c8_merged_part_metadata` on the two-part `w` run. -/
theorem c8_merged_part_metadata_witness :
    (∀ p ∈ [w1, w2], p.left_date ≤ 65535) ∧
    ((mergedPartMeta wCtx [w1, w2]).left = w1.left ∧
      (mergedPartMeta wCtx [w1, w2]).right =
        (([w1, w2] : List Part).getLast (List.cons_ne_nil w1 [w2])).right ∧
      ((mergedPartMeta wCtx [w1, w2]).left_date ∈ ([w1, w2] : List Part).map Part.left_date ∧
        ∀ p ∈ [w1, w2], (mergedPartMeta wCtx [w1, w2]).left_date ≤ p.left_date) ∧
      ((mergedPartMeta wCtx [w1, w2]).right_date ∈ ([w1, w2] : List Part).map Part.right_date ∧
        ∀ p ∈ [w1, w2], p.right_date ≤ (mergedPartMeta wCtx [w1, w2]).right_date) ∧
      ((∃ p ∈ [w1, w2], (mergedPartMeta wCtx [w1, w2]).level = p.level + 1) ∧
        ∀ p ∈ [w1, w2], p.level + 1 ≤ (mergedPartMeta wCtx [w1, w2]).level)) :=
  ⟨by decide, c8_merged_part_metadata wCtx w1 [w2] (by decide)⟩

/-! ### The extension loop: equations and soundness/completeness -/

theorem innerGo_nil (ctx : Ctx) (fl : Flags) (month : Nat) (is_old : Bool)
    (prev : Part) (st : RunState) (best : Option Cand) :
    innerGo ctx fl month is_old [] prev st best = best := rfl

theorem innerGo_cons (ctx : Ctx) (fl : Flags) (month : Nat) (is_old : Bool)
    (next : Part) (rest : List Part) (prev : Part) (st : RunState) (best : Option Cand) :
    innerGo ctx fl month is_old (next :: rest) prev st best =
      if st.cur_len < ctx.settings.max_parts_to_merge_at_once ∧
          canExtend ctx fl month prev next = true then
        innerGo ctx fl month is_old rest next (pushPart st next)
          (if validAfter ctx fl is_old (pushPart st next) &&
              diskOK ctx (pushPart st next) then
            some (candOf (pushPart st next))
          else best)
      else best := rfl

theorem chainFrom_nil (ctx : Ctx) (fl : Flags) (month : Nat) (prev : Part) :
    chainFrom ctx fl month prev [] = true := rfl

theorem chainFrom_cons (ctx : Ctx) (fl : Flags) (month : Nat) (prev q : Part)
    (l : List Part) :
    chainFrom ctx fl month prev (q :: l) =
      (canExtend ctx fl month prev q && chainFrom ctx fl month q l) := rfl

/-- Every part along an extension chain lies in the month of the run and in a
single month of its own. -/
theorem chainFrom_months (ctx : Ctx) (fl : Flags) (month : Nat) :
    ∀ (l : List Part) (prev : Part), chainFrom ctx fl month prev l = true →
      ∀ q ∈ l, q.left_month = q.right_month ∧ q.left_month = month := by
  intro l
  induction l with
  | nil => intro prev _ q hq; exact absurd hq (List.not_mem_nil q)
  | cons r t ih =>
    intro prev h q hq
    rw [chainFrom_cons, Bool.and_eq_true] at h
    obtain ⟨hcr, ht⟩ := h
    rw [canExtend] at hcr
    simp only [Bool.and_eq_true, decide_eq_true_eq] at hcr
    rcases List.mem_cons.mp hq with rfl | hq
    · exact ⟨hcr.1.1.1.2, hcr.1.1.2⟩
    · exact ih r ht q hq

/-- Along an extension chain each part begins at or after the end of the
previous one. -/
theorem chainFrom_adjacent (ctx : Ctx) (fl : Flags) (month : Nat) :
    ∀ (l : List Part) (prev : Part), chainFrom ctx fl month prev l = true →
      List.Chain' (fun a b => a.right ≤ b.left) (prev :: l) := by
  intro l
  induction l with
  | nil => intro prev _; simp
  | cons r t ih =>
    intro prev h
    rw [chainFrom_cons, Bool.and_eq_true] at h
    obtain ⟨hcr, ht⟩ := h
    rw [canExtend] at hcr
    simp only [Bool.and_eq_true, decide_eq_true_eq] at hcr
    exact List.Chain'.cons hcr.2 (ih r ht)

/-- Soundness of the extension loop: a returned candidate is either the
accumulator or the record of a reachable prefix that passed the validity and
disk tests. -/
theorem innerGo_sound (ctx : Ctx) (fl : Flags) (month : Nat) (is_old : Bool) :
    ∀ (rest : List Part) (prev : Part) (st : RunState) (best : Option Cand) (c : Cand),
      innerGo ctx fl month is_old rest prev st best = some c →
      best = some c ∨
      ∃ k, 1 ≤ k ∧ k ≤ rest.length ∧
        st.cur_len + k ≤ ctx.settings.max_parts_to_merge_at_once ∧
        chainFrom ctx fl month prev (rest.take k) = true ∧
        validAfter ctx fl is_old ((rest.take k).foldl pushPart st) = true ∧
        diskOK ctx ((rest.take k).foldl pushPart st) = true ∧
        c = candOf ((rest.take k).foldl pushPart st) := by
  intro rest
  induction rest with
  | nil =>
    intro prev st best c h
    rw [innerGo_nil] at h
    exact Or.inl h
  | cons next rest ih =>
    intro prev st best c h
    by_cases hg : st.cur_len < ctx.settings.max_parts_to_merge_at_once ∧
        canExtend ctx fl month prev next = true
    · rw [innerGo_cons, if_pos hg] at h
      rcases ih next (pushPart st next) _ c h with hb | ⟨k, hk1, hk2, hk3, hch, hv, hd, hc⟩
      · by_cases hr : (validAfter ctx fl is_old (pushPart st next) &&
            diskOK ctx (pushPart st next)) = true
        · rw [if_pos hr] at hb
          rw [Bool.and_eq_true] at hr
          injection hb with hb
          refine Or.inr ⟨1, le_refl _, by simp, by omega, ?_, ?_, ?_, ?_⟩
          · rw [List.take_succ_cons, List.take_zero, chainFrom_cons, hg.2,
              chainFrom_nil, Bool.and_self]
          · simpa using hr.1
          · simpa using hr.2
          · simpa using hb.symm
        · rw [if_neg hr] at hb
          exact Or.inl hb
      · refine Or.inr ⟨k + 1, by omega, by simpa using Nat.add_le_add_right hk2 1, ?_, ?_, ?_, ?_, ?_⟩
        · have : (pushPart st next).cur_len = st.cur_len + 1 := rfl
          omega
        · rw [List.take_succ_cons, chainFrom_cons, hg.2, hch, Bool.and_self]
        · rw [List.take_succ_cons, List.foldl_cons]; exact hv
        · rw [List.take_succ_cons, List.foldl_cons]; exact hd
        · rw [List.take_succ_cons, List.foldl_cons]; exact hc
    · rw [innerGo_cons, if_neg hg] at h
      exact Or.inl h

/-- The extension loop never loses a candidate already recorded: starting
from `some b` it returns some candidate at least as long. -/
theorem innerGo_ge_best (ctx : Ctx) (fl : Flags) (month : Nat) (is_old : Bool) :
    ∀ (rest : List Part) (prev : Part) (st : RunState) (b : Cand),
      b.len ≤ st.cur_len →
      ∃ c, innerGo ctx fl month is_old rest prev st (some b) = some c ∧ b.len ≤ c.len := by
  intro rest
  induction rest with
  | nil =>
    intro prev st b hb
    exact ⟨b, rfl, le_refl _⟩
  | cons next rest ih =>
    intro prev st b hb
    by_cases hg : st.cur_len < ctx.settings.max_parts_to_merge_at_once ∧
        canExtend ctx fl month prev next = true
    · rw [innerGo_cons, if_pos hg]
      have hlen2 : (pushPart st next).cur_len = st.cur_len + 1 := rfl
      by_cases hr : (validAfter ctx fl is_old (pushPart st next) &&
          diskOK ctx (pushPart st next)) = true
      · rw [if_pos hr]
        obtain ⟨c, hc, hlen⟩ := ih next (pushPart st next) (candOf (pushPart st next))
          (le_of_eq rfl)
        have h2 : (candOf (pushPart st next)).len = st.cur_len + 1 := rfl
        exact ⟨c, hc, by omega⟩
      · rw [if_neg hr]
        obtain ⟨c, hc, hlen⟩ := ih next (pushPart st next) b (by omega)
        exact ⟨c, hc, hlen⟩
    · rw [innerGo_cons, if_neg hg]
      exact ⟨b, rfl, le_refl _⟩

/-- Completeness of the extension loop: every reachable prefix that passes
the validity and disk tests forces the loop to return a candidate at least
that long. -/
theorem innerGo_complete (ctx : Ctx) (fl : Flags) (month : Nat) (is_old : Bool) :
    ∀ (rest : List Part) (k : Nat) (prev : Part) (st : RunState) (best : Option Cand),
      1 ≤ k → k ≤ rest.length →
      st.cur_len + k ≤ ctx.settings.max_parts_to_merge_at_once →
      chainFrom ctx fl month prev (rest.take k) = true →
      validAfter ctx fl is_old ((rest.take k).foldl pushPart st) = true →
      diskOK ctx ((rest.take k).foldl pushPart st) = true →
      ∃ c, innerGo ctx fl month is_old rest prev st best = some c ∧
        st.cur_len + k ≤ c.len := by
  intro rest
  induction rest with
  | nil =>
    intro k prev st best h1 h2 _ _ _ _
    simp only [List.length_nil] at h2
    omega
  | cons next rest ih =>
    intro k prev st best h1 h2 hcap hch hv hd
    cases k with
    | zero => omega
    | succ k =>
      rw [List.take_succ_cons] at hch hv hd
      rw [chainFrom_cons, Bool.and_eq_true] at hch
      obtain ⟨hce, hch2⟩ := hch
      have hg : st.cur_len < ctx.settings.max_parts_to_merge_at_once ∧
          canExtend ctx fl month prev next = true := ⟨by omega, hce⟩
      rw [innerGo_cons, if_pos hg]
      rw [List.foldl_cons] at hv hd
      have hlen2 : (pushPart st next).cur_len = st.cur_len + 1 := rfl
      cases k with
      | zero =>
        rw [List.take_zero, List.foldl_nil] at hv hd
        have hr : (validAfter ctx fl is_old (pushPart st next) &&
            diskOK ctx (pushPart st next)) = true := by
          rw [hv, hd]; rfl
        rw [if_pos hr]
        obtain ⟨c, hc, hlen⟩ := innerGo_ge_best ctx fl month is_old rest next
          (pushPart st next) (candOf (pushPart st next)) (le_of_eq rfl)
        have h3 : (candOf (pushPart st next)).len = st.cur_len + 1 := rfl
        exact ⟨c, hc, by omega⟩
      | succ k2 =>
        have h2b : k2 + 2 ≤ rest.length + 1 := by simpa using h2
        obtain ⟨c, hc, hlen⟩ := ih (k2 + 1) next (pushPart st next) _
          (by omega) (by omega) (by omega) hch2 hv hd
        exact ⟨c, hc, by omega⟩

/-! ### The longest recorded candidate at one starting position -/

theorem startCand_elig (ctx : Ctx) (fl : Flags) (snapshot : List Part) (i : Nat)
    (p : Part) (rest : List Part) (hdrop : snapshot.drop i = p :: rest)
    (he : eligFirst ctx fl p = true) :
    startCand ctx fl snapshot i =
      innerGo ctx fl p.left_month (isOldMonth ctx p.left_month) rest p (initState p) none := by
  unfold startCand
  rw [hdrop]
  simp [he]

theorem startCand_nil (ctx : Ctx) (fl : Flags) (snapshot : List Part) (i : Nat)
    (hdrop : snapshot.drop i = []) : startCand ctx fl snapshot i = none := by
  unfold startCand
  rw [hdrop]

theorem startCand_inelig (ctx : Ctx) (fl : Flags) (snapshot : List Part) (i : Nat)
    (p : Part) (rest : List Part) (hdrop : snapshot.drop i = p :: rest)
    (he : eligFirst ctx fl p = false) : startCand ctx fl snapshot i = none := by
  unfold startCand
  rw [hdrop]
  simp [he]

theorem startLen_eq_of (ctx : Ctx) (fl : Flags) (snapshot : List Part) (i : Nat)
    (c : Cand) (h : startCand ctx fl snapshot i = some c) :
    startLen ctx fl snapshot i = c.len := by
  rw [startLen, h]
  rfl

theorem startLen_none (ctx : Ctx) (fl : Flags) (snapshot : List Part) (i : Nat)
    (h : startCand ctx fl snapshot i = none) :
    startLen ctx fl snapshot i = 0 := by
  rw [startLen, h]
  rfl

/-- Unfolding of the candidate-run predicate at a position where the
snapshot is nonempty. -/
theorem candRunB_cons_iff (ctx : Ctx) (fl : Flags) (snapshot : List Part)
    (i len : Nat) (p : Part) (rest : List Part) (check_disk : Bool)
    (hdrop : snapshot.drop i = p :: rest) :
    candRunB ctx fl snapshot i len check_disk = true ↔
      (eligFirst ctx fl p = true ∧ 2 ≤ len ∧
       len ≤ ctx.settings.max_parts_to_merge_at_once ∧
       len - 1 ≤ rest.length ∧
       chainFrom ctx fl p.left_month p (rest.take (len - 1)) = true ∧
       validAfter ctx fl (isOldMonth ctx p.left_month) (stateOf p (rest.take (len - 1))) = true ∧
       (check_disk = true → diskOK ctx (stateOf p (rest.take (len - 1))) = true)) := by
  unfold candRunB
  rw [hdrop]
  cases check_disk <;> simp [and_assoc]

/-- A candidate run (with the disk test) at position `i` cannot be longer
than the recorded longest run there. -/
theorem candRun_le_startLen (ctx : Ctx) (fl : Flags) (snapshot : List Part)
    (i len : Nat) (h : candRunB ctx fl snapshot i len true = true) :
    len ≤ startLen ctx fl snapshot i := by
  cases hdrop : snapshot.drop i with
  | nil =>
    rw [candRunB, hdrop] at h
    simp at h
  | cons p rest =>
    rw [candRunB_cons_iff ctx fl snapshot i len p rest true hdrop] at h
    obtain ⟨he, h2, hcap, hrest, hch, hv, hd⟩ := h
    obtain ⟨c, hc, hbound⟩ := innerGo_complete ctx fl p.left_month
      (isOldMonth ctx p.left_month) rest (len - 1) p (initState p) none
      (by omega) hrest (by have : (initState p).cur_len = 1 := rfl; omega)
      hch hv (hd rfl)
    rw [startLen_eq_of ctx fl snapshot i c (by rw [startCand_elig ctx fl snapshot i p rest hdrop he]; exact hc)]
    have : (initState p).cur_len = 1 := rfl
    omega

/-- Soundness of `startCand`: a recorded candidate describes an actual
candidate run (with the disk test) of exactly its length, whose statistics
are those of the run's accumulator. -/
theorem startCand_sound (ctx : Ctx) (fl : Flags) (snapshot : List Part) (i : Nat)
    (c : Cand) (h : startCand ctx fl snapshot i = some c) :
    ∃ p rest, snapshot.drop i = p :: rest ∧
      eligFirst ctx fl p = true ∧
      2 ≤ c.len ∧ c.len ≤ ctx.settings.max_parts_to_merge_at_once ∧
      c.len - 1 ≤ rest.length ∧
      chainFrom ctx fl p.left_month p (rest.take (c.len - 1)) = true ∧
      validAfter ctx fl (isOldMonth ctx p.left_month) (stateOf p (rest.take (c.len - 1))) = true ∧
      diskOK ctx (stateOf p (rest.take (c.len - 1))) = true ∧
      c = candOf (stateOf p (rest.take (c.len - 1))) := by
  cases hdrop : snapshot.drop i with
  | nil => rw [startCand_nil ctx fl snapshot i hdrop] at h; exact absurd h (by simp)
  | cons p rest =>
    cases he : eligFirst ctx fl p with
    | false => rw [startCand_inelig ctx fl snapshot i p rest hdrop he] at h; exact absurd h (by simp)
    | true =>
      rw [startCand_elig ctx fl snapshot i p rest hdrop he] at h
      rcases innerGo_sound ctx fl p.left_month (isOldMonth ctx p.left_month) rest p
        (initState p) none c h with hnone | ⟨k, hk1, hk2, hk3, hch, hv, hd, hc⟩
      · exact absurd hnone (by simp)
      · have hlen : c.len = k + 1 := by
          rw [hc]
          show ((rest.take k).foldl pushPart (initState p)).cur_len = k + 1
          rw [foldPush_cur_len, List.length_take]
          have : (initState p).cur_len = 1 := rfl
          omega
        have hk : c.len - 1 = k := by omega
        refine ⟨p, rest, rfl, he, by omega, ?_, ?_, ?_, ?_, ?_, ?_⟩
        · have : (initState p).cur_len = 1 := rfl
          omega
        · omega
        · rw [hk]; exact hch
        · rw [hk]; exact hv
        · rw [hk]; exact hd
        · rw [hk]; exact hc

/-- The recorded candidate at `i` yields a candidate run of its own length. -/
theorem startCand_candRun (ctx : Ctx) (fl : Flags) (snapshot : List Part) (i : Nat)
    (c : Cand) (h : startCand ctx fl snapshot i = some c) :
    candRunB ctx fl snapshot i c.len true = true := by
  obtain ⟨p, rest, hdrop, he, h2, hcap, hrest, hch, hv, hd, hc⟩ :=
    startCand_sound ctx fl snapshot i c h
  rw [candRunB_cons_iff ctx fl snapshot i c.len p rest true hdrop]
  exact ⟨he, h2, hcap, hrest, hch, hv, fun _ => hd⟩

/-! ### The outer loop over starting positions -/

theorem outerGo_nil (ctx : Ctx) (fl : Flags) (idx mcfl : Nat)
    (best : Option (Nat × Cand)) : outerGo ctx fl [] idx mcfl best = best := rfl

theorem outerGo_cons (ctx : Ctx) (fl : Flags) (p : Part) (rest : List Part)
    (idx mcfl : Nat) (best : Option (Nat × Cand)) :
    outerGo ctx fl (p :: rest) idx mcfl best =
      (if eligFirst ctx fl p = true then
        match innerGo ctx fl p.left_month (isOldMonth ctx p.left_month) rest p
            (initState p) none with
        | some c =>
          if mcfl - 1 < c.len then
            outerGo ctx fl rest (idx+1) c.len
              (if better (idx, c) best then some (idx, c) else best)
          else outerGo ctx fl rest (idx+1) (mcfl - 1) best
        | none => outerGo ctx fl rest (idx+1) (mcfl - 1) best
      else outerGo ctx fl rest (idx+1) (mcfl - 1) best) := rfl

theorem outerGo_cons_elig_some (ctx : Ctx) (fl : Flags) (p : Part) (rest : List Part)
    (idx mcfl : Nat) (best : Option (Nat × Cand)) (c0 : Cand)
    (he : eligFirst ctx fl p = true)
    (hinner : innerGo ctx fl p.left_month (isOldMonth ctx p.left_month) rest p
      (initState p) none = some c0) :
    outerGo ctx fl (p :: rest) idx mcfl best =
      if mcfl - 1 < c0.len then
        outerGo ctx fl rest (idx+1) c0.len
          (if better (idx, c0) best then some (idx, c0) else best)
      else outerGo ctx fl rest (idx+1) (mcfl - 1) best := by
  rw [outerGo_cons, if_pos he, hinner]

theorem outerGo_cons_skip (ctx : Ctx) (fl : Flags) (p : Part) (rest : List Part)
    (idx mcfl : Nat) (best : Option (Nat × Cand))
    (h : eligFirst ctx fl p = false ∨
      innerGo ctx fl p.left_month (isOldMonth ctx p.left_month) rest p
        (initState p) none = none) :
    outerGo ctx fl (p :: rest) idx mcfl best =
      outerGo ctx fl rest (idx+1) (mcfl - 1) best := by
  rcases h with he | hi
  · rw [outerGo_cons, if_neg]
    simp [he]
  · rw [outerGo_cons]
    by_cases he : eligFirst ctx fl p = true
    · rw [if_pos he, hi]
    · rw [if_neg he]

theorem drop_succ_of_cons (snapshot : List Part) (idx : Nat) (p : Part)
    (rest : List Part) (h : snapshot.drop idx = p :: rest) :
    snapshot.drop (idx + 1) = rest := by
  rw [← List.drop_drop, h]
  rfl

/-- The outer loop's `max_count_from_left` invariant: a returned best
candidate is the recorded longest run at its position, and no earlier
position records a run reaching beyond its end. -/
theorem outerGo_maximal (ctx : Ctx) (fl : Flags) (snapshot : List Part) :
    ∀ (rest : List Part) (idx mcfl : Nat) (best : Option (Nat × Cand)) (i : Nat) (c : Cand),
      snapshot.drop idx = rest →
      (∀ i0, i0 < idx → startLen ctx fl snapshot i0 ≤ mcfl + (idx - 1 - i0)) →
      (∀ j d, best = some (j, d) → startCand ctx fl snapshot j = some d ∧
        ∀ i0, i0 < j → startLen ctx fl snapshot i0 < d.len + (j - i0)) →
      outerGo ctx fl rest idx mcfl best = some (i, c) →
      startCand ctx fl snapshot i = some c ∧
      ∀ i0, i0 < i → startLen ctx fl snapshot i0 < c.len + (i - i0) := by
  intro rest
  induction rest with
  | nil =>
    intro idx mcfl best i c _ _ hbest hres
    rw [outerGo_nil] at hres
    exact hbest i c hres
  | cons p rest ih =>
    intro idx mcfl best i c hdrop hm hbest hres
    have hdrop2 : snapshot.drop (idx + 1) = rest := drop_succ_of_cons snapshot idx p rest hdrop
    cases he : eligFirst ctx fl p with
    | false =>
      rw [outerGo_cons_skip ctx fl p rest idx mcfl best (Or.inl he)] at hres
      have hzero : startLen ctx fl snapshot idx = 0 :=
        startLen_none ctx fl snapshot idx (startCand_inelig ctx fl snapshot idx p rest hdrop he)
      refine ih (idx+1) (mcfl - 1) best i c hdrop2 ?_ hbest hres
      intro i0 h0
      rcases Nat.lt_or_ge i0 idx with h1 | h1
      · have := hm i0 h1
        omega
      · have : i0 = idx := by omega
        rw [this, hzero]
        omega
    | true =>
      cases hinner : innerGo ctx fl p.left_month (isOldMonth ctx p.left_month) rest p
          (initState p) none with
      | none =>
        rw [outerGo_cons_skip ctx fl p rest idx mcfl best (Or.inr hinner)] at hres
        have hzero : startLen ctx fl snapshot idx = 0 := by
          refine startLen_none ctx fl snapshot idx ?_
          rw [startCand_elig ctx fl snapshot idx p rest hdrop he]
          exact hinner
        refine ih (idx+1) (mcfl - 1) best i c hdrop2 ?_ hbest hres
        intro i0 h0
        rcases Nat.lt_or_ge i0 idx with h1 | h1
        · have := hm i0 h1
          omega
        · have : i0 = idx := by omega
          rw [this, hzero]
          omega
      | some c0 =>
        have hsc0 : startCand ctx fl snapshot idx = some c0 := by
          rw [startCand_elig ctx fl snapshot idx p rest hdrop he]
          exact hinner
        have hlen0 : startLen ctx fl snapshot idx = c0.len :=
          startLen_eq_of ctx fl snapshot idx c0 hsc0
        rw [outerGo_cons_elig_some ctx fl p rest idx mcfl best c0 he hinner] at hres
        by_cases hacc : mcfl - 1 < c0.len
        · rw [if_pos hacc] at hres
          refine ih (idx+1) c0.len _ i c hdrop2 ?_ ?_ hres
          · intro i0 h0
            rcases Nat.lt_or_ge i0 idx with h1 | h1
            · have := hm i0 h1
              omega
            · have : i0 = idx := by omega
              rw [this, hlen0]
              omega
          · intro j d hj
            by_cases hb : better (idx, c0) best = true
            · rw [if_pos hb] at hj
              injection hj with hj
              injection hj with h1 h2
              subst h1
              subst h2
              refine ⟨hsc0, ?_⟩
              intro i0 h0
              have := hm i0 h0
              omega
            · rw [if_neg hb] at hj
              exact hbest j d hj
        · rw [if_neg hacc] at hres
          refine ih (idx+1) (mcfl - 1) best i c hdrop2 ?_ hbest hres
          intro i0 h0
          rcases Nat.lt_or_ge i0 idx with h1 | h1
          · have := hm i0 h1
            omega
          · have : i0 = idx := by omega
            rw [this, hlen0]
            omega

/-- Shape of a successful selection: the returned run is the extraction of
the best candidate, which is the recorded longest run at its position, with
no earlier position recording a run that reaches beyond its end. -/
theorem select_some_spec (ctx : Ctx) (fl : Flags) (snapshot R : List Part)
    (h : selectPartsToMerge ctx fl snapshot = some R) :
    ∃ i c, startCand ctx fl snapshot i = some c ∧
      R = (snapshot.drop i).take c.len ∧
      ∀ i0, i0 < i → startLen ctx fl snapshot i0 < c.len + (i - i0) := by
  unfold selectPartsToMerge at h
  cases houter : outerGo ctx fl snapshot 0 0 none with
  | none =>
    rw [houter] at h
    exact absurd h (by simp)
  | some ic =>
    rw [houter] at h
    have h2 : some ((snapshot.drop ic.1).take ic.2.len) = some R := h
    injection h2 with h2
    obtain ⟨hsc, hbound⟩ := outerGo_maximal ctx fl snapshot snapshot 0 0 none ic.1 ic.2
      rfl (fun i0 h0 => absurd h0 (Nat.not_lt_zero i0))
      (fun j d hj => absurd hj (by simp)) houter
    exact ⟨ic.1, ic.2, hsc, h2.symm, hbound⟩

/-! ### C4: inclusion maximality -/

/-- C4 (amended): a selected run is inclusion-maximal among the candidate
runs that also satisfy the disk-headroom rule: any such run containing it
(starting at or before it and ending at or after it) is the run itself.
Maximality does *not* hold against runs that are valid but fail the disk
rule (see the counterexample). -/
theorem c4_selected_run_maximal (ctx : Ctx) (fl : Flags) (snapshot R : List Part)
    (h : selectPartsToMerge ctx fl snapshot = some R) :
    ∃ i len, R = (snapshot.drop i).take len ∧
      candRunB ctx fl snapshot i len true = true ∧
      ∀ i2 len2, candRunB ctx fl snapshot i2 len2 true = true →
        i2 ≤ i → i + len ≤ i2 + len2 → i2 = i ∧ len2 = len := by
  obtain ⟨i, c, hsc, hR, hbound⟩ := select_some_spec ctx fl snapshot R h
  refine ⟨i, c.len, hR, startCand_candRun ctx fl snapshot i c hsc, ?_⟩
  intro i2 len2 hcand hle hcover
  have hlen2 : len2 ≤ startLen ctx fl snapshot i2 :=
    candRun_le_startLen ctx fl snapshot i2 len2 hcand
  rcases Nat.lt_or_ge i2 i with hlt | hge
  · have := hbound i2 hlt
    omega
  · have hi : i2 = i := by omega
    subst hi
    rw [startLen_eq_of ctx fl snapshot i2 c hsc] at hlen2
    omega

/-- C4 (counterexample): in the `d` scenario the selector returns the run
`[d1, d2]` (positions 0–1), while `[d1, d2, d3]` (positions 0–2) is a valid
run in the specification's sense — it passes eligibility, the chain rules
and the validity test, and fails only the disk-headroom rule — and strictly
contains the returned run. -/
theorem c4_counterexample :
    selectPartsToMerge dCtx dFl [d1, d2, d3] = some [d1, d2] ∧
    [d1, d2] = (([d1, d2, d3] : List Part).drop 0).take 2 ∧
    candRunB dCtx dFl [d1, d2, d3] 0 3 false = true ∧
    candRunB dCtx dFl [d1, d2, d3] 0 3 true = false ∧
    (0 : Nat) ≤ 0 ∧ 0 + 2 ≤ 0 + 3 ∧ ¬ ((3 : Nat) = 2) := by
  refine ⟨?_, rfl, ?_, ?_, le_refl _, by omega, by omega⟩
  · norm_num [selectPartsToMerge, outerGo, innerGo, eligFirst, canExtend, validAfter,
      minLenFor, curAgeSec, curMaxRows, isOldMonth, initState, pushPart, candOf,
      better, lexLt, diskOK, dCtx, dFl, dS, d1, d2, d3]
  · norm_num [candRunB, eligFirst, canExtend, chainFrom, validAfter, minLenFor,
      curAgeSec, mergeRatio, ratioCondB, diskOK, stateOf, initState, pushPart,
      isOldMonth, curMaxRows, dCtx, dFl, dS, d1, d2, d3]
  · norm_num [candRunB, eligFirst, canExtend, chainFrom, validAfter, minLenFor,
      curAgeSec, mergeRatio, ratioCondB, diskOK, stateOf, initState, pushPart,
      isOldMonth, curMaxRows, dCtx, dFl, dS, d1, d2, d3]

/-- Evaluation of the `w` scenario: the selector returns the two-part run. -/
theorem select_w_eval : selectPartsToMerge wCtx wFl [w1, w2] = some [w1, w2] := by
  norm_num [selectPartsToMerge, outerGo, innerGo, eligFirst, canExtend, validAfter,
    minLenFor, curAgeSec, curMaxRows, isOldMonth, initState, pushPart, candOf,
    better, lexLt, diskOK, wCtx, wFl, wS, w1, w2]

/-- Witness for `c4_selected_run_maximal` at the `w` scenario. -/
theorem c4_selected_run_maximal_witness :
    selectPartsToMerge wCtx wFl [w1, w2] = some [w1, w2] ∧
    (∃ i len, ([w1, w2] : List Part) = (([w1, w2] : List Part).drop i).take len ∧
      candRunB wCtx wFl [w1, w2] i len true = true ∧
      ∀ i2 len2, candRunB wCtx wFl [w1, w2] i2 len2 true = true →
        i2 ≤ i → i + len ≤ i2 + len2 → i2 = i ∧ len2 = len) :=
  ⟨select_w_eval, c4_selected_run_maximal wCtx wFl [w1, w2] [w1, w2] select_w_eval⟩

/-! ### C6: well-formedness of the selected run -/

/-- C6: every selected run has between 2 and `max_parts_to_merge_at_once`
parts, each part spans a single month, all parts share that month, and
consecutive parts satisfy `prev.right ≤ next.left`. -/
theorem c6_selected_run_wellformed (ctx : Ctx) (fl : Flags) (snapshot R : List Part)
    (h : selectPartsToMerge ctx fl snapshot = some R) :
    2 ≤ R.length ∧ R.length ≤ ctx.settings.max_parts_to_merge_at_once ∧
    (∀ p ∈ R, p.left_month = p.right_month) ∧
    (∀ p ∈ R, ∀ q ∈ R, p.left_month = q.left_month) ∧
    List.Chain' (fun a b => a.right ≤ b.left) R := by
  obtain ⟨i, c, hsc, hR, _⟩ := select_some_spec ctx fl snapshot R h
  obtain ⟨p, rest, hdrop, he, h2, hcap, hrest, hch, hv, hd, hc⟩ :=
    startCand_sound ctx fl snapshot i c hsc
  have hRe : R = p :: rest.take (c.len - 1) := by
    rw [hR, hdrop]
    have hsplit : c.len = (c.len - 1) + 1 := by omega
    rw [hsplit, List.take_succ_cons]
    simp
  have hextlen : (rest.take (c.len - 1)).length = c.len - 1 := by
    rw [List.length_take]
    omega
  have hmonths := chainFrom_months ctx fl p.left_month (rest.take (c.len - 1)) p hch
  have hpelig : p.left_month = p.right_month := by
    rw [eligFirst, Bool.and_eq_true] at he
    exact of_decide_eq_true he.2
  have hall : ∀ x ∈ R, x.left_month = p.left_month := by
    intro x hx
    rw [hRe] at hx
    rcases List.mem_cons.mp hx with rfl | hx
    · rfl
    · exact (hmonths x hx).2
  refine ⟨?_, ?_, ?_, ?_, ?_⟩
  · rw [hRe]
    simp [hextlen]
    omega
  · rw [hRe]
    simp [hextlen]
    omega
  · intro x hx
    rw [hRe] at hx
    rcases List.mem_cons.mp hx with rfl | hx
    · exact hpelig
    · exact (hmonths x hx).1
  · intro x hx y hy
    rw [hall x hx, hall y hy]
  · rw [hRe]
    exact chainFrom_adjacent ctx fl p.left_month (rest.take (c.len - 1)) p hch

/-- Witness for `c6_selected_run_wellformed` at the `w` scenario. -/
theorem c6_selected_run_wellformed_witness :
    selectPartsToMerge wCtx wFl [w1, w2] = some [w1, w2] ∧
    (2 ≤ ([w1, w2] : List Part).length ∧
      ([w1, w2] : List Part).length ≤ wCtx.settings.max_parts_to_merge_at_once ∧
      (∀ p ∈ [w1, w2], p.left_month = p.right_month) ∧
      (∀ p ∈ [w1, w2], ∀ q ∈ [w1, w2], p.left_month = q.left_month) ∧
      List.Chain' (fun a b => a.right ≤ b.left) [w1, w2]) :=
  ⟨select_w_eval, c6_selected_run_wellformed wCtx wFl [w1, w2] [w1, w2] select_w_eval⟩

/-! ### C7: disk headroom of the selected run -/

/-- C7: every selected run satisfies the strict disk-headroom inequality
`Σ size_in_bytes × 1.6 < available_disk_space`; the recording step admits a
run as the longest at its position only under this test. -/
theorem c7_disk_headroom (ctx : Ctx) (fl : Flags) (snapshot R : List Part)
    (h : selectPartsToMerge ctx fl snapshot = some R) :
    ((R.map Part.size_in_bytes).sum : ℚ) * (8/5) < (ctx.available_disk_space : ℚ) := by
  obtain ⟨i, c, hsc, hR, _⟩ := select_some_spec ctx fl snapshot R h
  obtain ⟨p, rest, hdrop, he, h2, hcap, hrest, hch, hv, hd, hc⟩ :=
    startCand_sound ctx fl snapshot i c hsc
  have hRe : R = p :: rest.take (c.len - 1) := by
    rw [hR, hdrop]
    have hsplit : c.len = (c.len - 1) + 1 := by omega
    rw [hsplit, List.take_succ_cons]
    simp
  rw [diskOK, decide_eq_true_eq] at hd
  have htot : (stateOf p (rest.take (c.len - 1))).cur_total_size =
      (R.map Part.size_in_bytes).sum := by
    rw [hRe, stateOf, foldPush_total]
    simp [initState]
  rw [htot] at hd
  exact hd

/-- Witness for `c7_disk_headroom` at the `w` scenario. -/
theorem c7_disk_headroom_witness :
    selectPartsToMerge wCtx wFl [w1, w2] = some [w1, w2] ∧
    ((([w1, w2] : List Part).map Part.size_in_bytes).sum : ℚ) * (8/5) <
      (wCtx.available_disk_space : ℚ) :=
  ⟨select_w_eval, c7_disk_headroom wCtx wFl [w1, w2] [w1, w2] select_w_eval⟩

/-! ### The tie-break order -/

theorem lexLt_char (a b : Cand) : lexLt a b = true ↔
    (a.cmax < b.cmax ∨ (a.cmax = b.cmax ∧
      (a.cmin < b.cmin ∨ (a.cmin = b.cmin ∧ b.len < a.len)))) := by
  rw [lexLt]
  simp

theorem lexLt_irrefl (a : Cand) : lexLt a a = false := by
  rw [← Bool.not_eq_true, lexLt_char]
  omega

theorem lexLt_trans (a b c : Cand) (h1 : lexLt a b = true) (h2 : lexLt b c = true) :
    lexLt a c = true := by
  rw [lexLt_char] at h1 h2 ⊢
  omega

theorem cand_ext (a b : Cand) (h1 : a.cmax = b.cmax) (h2 : a.cmin = b.cmin)
    (h3 : a.len = b.len) : a = b := by
  cases a
  cases b
  simp_all

theorem lexLt_antisymm_eq (a b : Cand) (h1 : lexLt a b = false) (h2 : lexLt b a = false) :
    a = b := by
  rw [← Bool.not_eq_true, lexLt_char] at h1 h2
  refine cand_ext a b ?_ ?_ ?_ <;> omega

/-- The statistics stored in a recorded candidate are exactly the largest
size, the smallest size and the length of the extracted run. -/
theorem startCand_stats (ctx : Ctx) (fl : Flags) (snapshot : List Part) (i : Nat)
    (c : Cand) (h : startCand ctx fl snapshot i = some c) :
    c.cmax = runMaxSize ((snapshot.drop i).take c.len) ∧
    c.cmin = runMinSize ((snapshot.drop i).take c.len) ∧
    c.len = ((snapshot.drop i).take c.len).length := by
  obtain ⟨p, rest, hdrop, he, h2, hcap, hrest, hch, hv, hd, hc⟩ :=
    startCand_sound ctx fl snapshot i c h
  have hRe : (snapshot.drop i).take c.len = p :: rest.take (c.len - 1) := by
    rw [hdrop]
    have hsplit : c.len = (c.len - 1) + 1 := by omega
    rw [hsplit, List.take_succ_cons]
    simp
  have hextlen : (rest.take (c.len - 1)).length = c.len - 1 := by
    rw [List.length_take]
    omega
  have hcm : c.cmax = (stateOf p (rest.take (c.len - 1))).cur_max := by
    conv_lhs => rw [hc]
    rfl
  have hcmin : c.cmin = (stateOf p (rest.take (c.len - 1))).cur_min := by
    conv_lhs => rw [hc]
    rfl
  refine ⟨?_, ?_, ?_⟩
  · rw [hcm, hRe, stateOf, foldPush_max, runMaxSize, List.foldl_cons, Nat.zero_max]
    rfl
  · rw [hcmin, hRe, stateOf, foldPush_min, runMinSize]
    rfl
  · rw [hRe, List.length_cons, hextlen]
    omega

/-! ### The accepted candidates and the running tie-break -/

theorem acceptedGo_nil (ctx : Ctx) (fl : Flags) (idx mcfl : Nat) :
    acceptedGo ctx fl [] idx mcfl = [] := rfl

theorem acceptedGo_cons (ctx : Ctx) (fl : Flags) (p : Part) (rest : List Part)
    (idx mcfl : Nat) :
    acceptedGo ctx fl (p :: rest) idx mcfl =
      (if eligFirst ctx fl p = true then
        match innerGo ctx fl p.left_month (isOldMonth ctx p.left_month) rest p
            (initState p) none with
        | some c =>
          if mcfl - 1 < c.len then (idx, c) :: acceptedGo ctx fl rest (idx+1) c.len
          else acceptedGo ctx fl rest (idx+1) (mcfl - 1)
        | none => acceptedGo ctx fl rest (idx+1) (mcfl - 1)
      else acceptedGo ctx fl rest (idx+1) (mcfl - 1)) := rfl

theorem acceptedGo_cons_elig_some (ctx : Ctx) (fl : Flags) (p : Part)
    (rest : List Part) (idx mcfl : Nat) (c0 : Cand)
    (he : eligFirst ctx fl p = true)
    (hinner : innerGo ctx fl p.left_month (isOldMonth ctx p.left_month) rest p
      (initState p) none = some c0) :
    acceptedGo ctx fl (p :: rest) idx mcfl =
      if mcfl - 1 < c0.len then (idx, c0) :: acceptedGo ctx fl rest (idx+1) c0.len
      else acceptedGo ctx fl rest (idx+1) (mcfl - 1) := by
  rw [acceptedGo_cons, if_pos he, hinner]

theorem acceptedGo_cons_skip (ctx : Ctx) (fl : Flags) (p : Part) (rest : List Part)
    (idx mcfl : Nat)
    (h : eligFirst ctx fl p = false ∨
      innerGo ctx fl p.left_month (isOldMonth ctx p.left_month) rest p
        (initState p) none = none) :
    acceptedGo ctx fl (p :: rest) idx mcfl = acceptedGo ctx fl rest (idx+1) (mcfl - 1) := by
  rcases h with he | hi
  · rw [acceptedGo_cons, if_neg]
    simp [he]
  · rw [acceptedGo_cons]
    by_cases he : eligFirst ctx fl p = true
    · rw [if_pos he, hi]
    · rw [if_neg he]

/-- The outer loop is the tie-break fold over the accepted candidates. -/
theorem outerGo_eq_foldl (ctx : Ctx) (fl : Flags) :
    ∀ (rest : List Part) (idx mcfl : Nat) (best : Option (Nat × Cand)),
      outerGo ctx fl rest idx mcfl best =
        (acceptedGo ctx fl rest idx mcfl).foldl
          (fun b ic => if better ic b then some ic else b) best := by
  intro rest
  induction rest with
  | nil => intro idx mcfl best; rfl
  | cons p rest ih =>
    intro idx mcfl best
    cases he : eligFirst ctx fl p with
    | false =>
      rw [outerGo_cons_skip ctx fl p rest idx mcfl best (Or.inl he),
        acceptedGo_cons_skip ctx fl p rest idx mcfl (Or.inl he)]
      exact ih (idx+1) (mcfl - 1) best
    | true =>
      cases hinner : innerGo ctx fl p.left_month (isOldMonth ctx p.left_month) rest p
          (initState p) none with
      | none =>
        rw [outerGo_cons_skip ctx fl p rest idx mcfl best (Or.inr hinner),
          acceptedGo_cons_skip ctx fl p rest idx mcfl (Or.inr hinner)]
        exact ih (idx+1) (mcfl - 1) best
      | some c0 =>
        rw [outerGo_cons_elig_some ctx fl p rest idx mcfl best c0 he hinner,
          acceptedGo_cons_elig_some ctx fl p rest idx mcfl c0 he hinner]
        by_cases hacc : mcfl - 1 < c0.len
        · rw [if_pos hacc, if_pos hacc, List.foldl_cons]
          exact ih (idx+1) c0.len _
        · rw [if_neg hacc, if_neg hacc]
          exact ih (idx+1) (mcfl - 1) best

/-- Every accepted candidate records the longest run at its own position. -/
theorem acceptedGo_mem (ctx : Ctx) (fl : Flags) (snapshot : List Part) :
    ∀ (rest : List Part) (idx mcfl : Nat), snapshot.drop idx = rest →
      ∀ x : Nat × Cand, x ∈ acceptedGo ctx fl rest idx mcfl →
        idx ≤ x.1 ∧ startCand ctx fl snapshot x.1 = some x.2 := by
  intro rest
  induction rest with
  | nil =>
    intro idx mcfl _ x hx
    rw [acceptedGo_nil] at hx
    exact absurd hx (List.not_mem_nil x)
  | cons p rest ih =>
    intro idx mcfl hdrop x hx
    have hdrop2 : snapshot.drop (idx + 1) = rest := drop_succ_of_cons snapshot idx p rest hdrop
    cases he : eligFirst ctx fl p with
    | false =>
      rw [acceptedGo_cons_skip ctx fl p rest idx mcfl (Or.inl he)] at hx
      obtain ⟨h1, h2⟩ := ih (idx+1) (mcfl - 1) hdrop2 x hx
      exact ⟨by omega, h2⟩
    | true =>
      cases hinner : innerGo ctx fl p.left_month (isOldMonth ctx p.left_month) rest p
          (initState p) none with
      | none =>
        rw [acceptedGo_cons_skip ctx fl p rest idx mcfl (Or.inr hinner)] at hx
        obtain ⟨h1, h2⟩ := ih (idx+1) (mcfl - 1) hdrop2 x hx
        exact ⟨by omega, h2⟩
      | some c0 =>
        rw [acceptedGo_cons_elig_some ctx fl p rest idx mcfl c0 he hinner] at hx
        by_cases hacc : mcfl - 1 < c0.len
        · rw [if_pos hacc] at hx
          rcases List.mem_cons.mp hx with rfl | hx
          · refine ⟨le_refl _, ?_⟩
            rw [startCand_elig ctx fl snapshot idx p rest hdrop he]
            exact hinner
          · obtain ⟨h1, h2⟩ := ih (idx+1) c0.len hdrop2 x hx
            exact ⟨by omega, h2⟩
        · rw [if_neg hacc] at hx
          obtain ⟨h1, h2⟩ := ih (idx+1) (mcfl - 1) hdrop2 x hx
          exact ⟨by omega, h2⟩

/-- Accepted candidates appear in strictly increasing snapshot order. -/
theorem acceptedGo_pairwise (ctx : Ctx) (fl : Flags) :
    ∀ (rest : List Part) (idx mcfl : Nat),
      (∀ x : Nat × Cand, x ∈ acceptedGo ctx fl rest idx mcfl → idx ≤ x.1) ∧
      List.Pairwise (fun a b => a.1 < b.1) (acceptedGo ctx fl rest idx mcfl) := by
  intro rest
  induction rest with
  | nil =>
    intro idx mcfl
    rw [acceptedGo_nil]
    exact ⟨fun x hx => absurd hx (List.not_mem_nil x), List.Pairwise.nil⟩
  | cons p rest ih =>
    intro idx mcfl
    cases he : eligFirst ctx fl p with
    | false =>
      rw [acceptedGo_cons_skip ctx fl p rest idx mcfl (Or.inl he)]
      obtain ⟨hlb, hpw⟩ := ih (idx+1) (mcfl - 1)
      exact ⟨fun x hx => by have := hlb x hx; omega, hpw⟩
    | true =>
      cases hinner : innerGo ctx fl p.left_month (isOldMonth ctx p.left_month) rest p
          (initState p) none with
      | none =>
        rw [acceptedGo_cons_skip ctx fl p rest idx mcfl (Or.inr hinner)]
        obtain ⟨hlb, hpw⟩ := ih (idx+1) (mcfl - 1)
        exact ⟨fun x hx => by have := hlb x hx; omega, hpw⟩
      | some c0 =>
        rw [acceptedGo_cons_elig_some ctx fl p rest idx mcfl c0 he hinner]
        by_cases hacc : mcfl - 1 < c0.len
        · rw [if_pos hacc]
          obtain ⟨hlb, hpw⟩ := ih (idx+1) c0.len
          constructor
          · intro x hx
            rcases List.mem_cons.mp hx with rfl | hx
            · exact le_refl _
            · have := hlb x hx
              omega
          · refine List.Pairwise.cons ?_ hpw
            intro x hx
            have := hlb x hx
            simp only []
            omega
        · rw [if_neg hacc]
          obtain ⟨hlb, hpw⟩ := ih (idx+1) (mcfl - 1)
          exact ⟨fun x hx => by have := hlb x hx; omega, hpw⟩

theorem lexLt_total (a b : Cand) (h : lexLt a b = false) :
    lexLt b a = true ∨ b = a := by
  by_cases h2 : lexLt b a = true
  · exact Or.inl h2
  · exact Or.inr (lexLt_antisymm_eq b a (by simpa using h2) h)

/-- The tie-break fold returns a minimum of the accepted candidates under
the lexicographic order, with ties resolved to the earliest position. -/
theorem foldl_better_spec :
    ∀ (l : List (Nat × Cand)) (start : Option (Nat × Cand)) (i : Nat) (c : Cand),
      List.Pairwise (fun x y => x.1 < y.1) l →
      (∀ j0 d0, start = some (j0, d0) → ∀ x ∈ l, j0 < x.1) →
      l.foldl (fun b ic => if better ic b then some ic else b) start = some (i, c) →
      (start = some (i, c) ∨ (i, c) ∈ l) ∧
      (∀ x ∈ l, lexLt x.2 c = false) ∧
      (∀ j0 d0, start = some (j0, d0) → lexLt d0 c = false) ∧
      (∀ x ∈ l, x.2 = c → i ≤ x.1) ∧
      (∀ j0 d0, start = some (j0, d0) → d0 = c → i ≤ j0) := by
  intro l
  induction l with
  | nil =>
    intro start i c _ _ hres
    rw [List.foldl_nil] at hres
    subst hres
    refine ⟨Or.inl rfl, by simp, ?_, by simp, ?_⟩
    · intro j0 d0 h0
      injection h0 with h0
      injection h0 with hj hd
      rw [← hd]
      exact lexLt_irrefl c
    · intro j0 d0 h0 _
      injection h0 with h0
      injection h0 with hj hd
      omega
  | cons x t ih =>
    intro start i c hpw hstart hres
    obtain ⟨xj, xd⟩ := x
    rw [List.foldl_cons] at hres
    obtain ⟨hx_t, hpw_t⟩ := List.pairwise_cons.mp hpw
    by_cases hb : better (xj, xd) start = true
    · rw [if_pos hb] at hres
      have hstart2 : ∀ j0 d0, (some (xj, xd) : Option (Nat × Cand)) = some (j0, d0) →
          ∀ y ∈ t, j0 < y.1 := by
        intro j0 d0 h0 y hy
        injection h0 with h0
        injection h0 with h1 h2
        subst h1
        exact hx_t y hy
      obtain ⟨hprov, hminl, hminstart, htiel, htiestart⟩ :=
        ih (some (xj, xd)) i c hpw_t hstart2 hres
      have hxc : lexLt xd c = false := hminstart xj xd rfl
      refine ⟨?_, ?_, ?_, ?_, ?_⟩
      · rcases hprov with h0 | h0
        · injection h0 with h0
          injection h0 with h1 h2
          subst h1
          subst h2
          exact Or.inr (List.mem_cons_self _ _)
        · exact Or.inr (List.mem_cons_of_mem _ h0)
      · intro y hy
        rcases List.mem_cons.mp hy with rfl | hy
        · exact hxc
        · exact hminl y hy
      · intro j0 d0 h0
        have hlt : lexLt xd d0 = true := by
          rw [h0] at hb
          exact hb
        cases hq : lexLt d0 c with
        | false => rfl
        | true => exact absurd (lexLt_trans xd d0 c hlt hq) (by simp [hxc])
      · intro y hy hyc
        rcases List.mem_cons.mp hy with rfl | hy
        · exact htiestart xj xd rfl hyc
        · exact htiel y hy hyc
      · intro j0 d0 h0 hd0
        have hlt : lexLt xd d0 = true := by
          rw [h0] at hb
          exact hb
        rw [hd0] at hlt
        exact absurd hlt (by simp [hxc])
    · rw [if_neg hb] at hres
      have hstart_t : ∀ j0 d0, start = some (j0, d0) → ∀ y ∈ t, j0 < y.1 := by
        intro j0 d0 h0 y hy
        exact hstart j0 d0 h0 y (List.mem_cons_of_mem _ hy)
      obtain ⟨hprov, hminl, hminstart, htiel, htiestart⟩ :=
        ih start i c hpw_t hstart_t hres
      cases hstartcase : start with
      | none =>
        rw [hstartcase] at hb
        exact absurd rfl hb
      | some s0 =>
        obtain ⟨sj, sd⟩ := s0
        rw [hstartcase] at hprov hminstart htiestart hstart hb
        have hbf : lexLt xd sd = false := by
          cases hq : lexLt xd sd with
          | false => rfl
          | true => exact absurd hq hb
        have hsc : lexLt sd c = false := hminstart sj sd rfl
        have hxc : lexLt xd c = false := by
          rcases lexLt_total xd sd hbf with hlt | heq
          · cases hq : lexLt xd c with
            | false => rfl
            | true => exact absurd (lexLt_trans sd xd c hlt hq) (by simp [hsc])
          · rw [← heq]
            exact hsc
        refine ⟨?_, ?_, ?_, ?_, ?_⟩
        · rcases hprov with h0 | h0
          · exact Or.inl h0
          · exact Or.inr (List.mem_cons_of_mem _ h0)
        · intro y hy
          rcases List.mem_cons.mp hy with rfl | hy
          · exact hxc
          · exact hminl y hy
        · exact hminstart
        · intro y hy hyc
          rcases List.mem_cons.mp hy with rfl | hy
          · have h1 : lexLt c sd = false := by
              rw [← hyc]
              exact hbf
            have h2 : sd = c := lexLt_antisymm_eq sd c hsc h1
            have h3 : i ≤ sj := htiestart sj sd rfl h2
            have h4 : sj < xj := hstart sj sd rfl (xj, xd) (List.mem_cons_self _ _)
            omega
          · exact htiel y hy hyc
        · exact htiestart

/-! ### C5: the global tie-break -/

/-- C5: among the accepted (inclusion-maximal) candidates, the returned run
is minimal in the lexicographic order (smallest largest-size, then smallest
smallest-size, then greatest length — `lexLt` is exactly that order), and
among candidates with identical statistics the earliest start in the
snapshot wins; each accepted candidate's comparison key consists of the
largest size, the smallest size and the length of its run. -/
theorem c5_tiebreak (ctx : Ctx) (fl : Flags) (snapshot R : List Part)
    (h : selectPartsToMerge ctx fl snapshot = some R) :
    ∃ i c, (i, c) ∈ acceptedCands ctx fl snapshot ∧
      R = (snapshot.drop i).take c.len ∧
      ∀ x : Nat × Cand, x ∈ acceptedCands ctx fl snapshot →
        (x.2.cmax = runMaxSize ((snapshot.drop x.1).take x.2.len) ∧
         x.2.cmin = runMinSize ((snapshot.drop x.1).take x.2.len) ∧
         x.2.len = ((snapshot.drop x.1).take x.2.len).length) ∧
        lexLt x.2 c = false ∧
        (x.2 = c → i ≤ x.1) := by
  unfold selectPartsToMerge at h
  cases houter : outerGo ctx fl snapshot 0 0 none with
  | none =>
    rw [houter] at h
    exact absurd h (by simp)
  | some ic =>
    obtain ⟨i, c⟩ := ic
    rw [houter] at h
    have h2 : some ((snapshot.drop i).take c.len) = some R := h
    injection h2 with h2
    rw [outerGo_eq_foldl ctx fl snapshot 0 0 none] at houter
    obtain ⟨hlb, hpw⟩ := acceptedGo_pairwise ctx fl snapshot 0 0
    obtain ⟨hprov, hminl, _, htiel, _⟩ := foldl_better_spec
      (acceptedCands ctx fl snapshot) none i c hpw
      (fun j0 d0 h0 => absurd h0 (by simp)) houter
    rcases hprov with h0 | h0
    · exact absurd h0 (by simp)
    · refine ⟨i, c, h0, h2.symm, ?_⟩
      intro x hx
      obtain ⟨_, hsc⟩ := acceptedGo_mem ctx fl snapshot snapshot 0 0 rfl x hx
      exact ⟨startCand_stats ctx fl snapshot x.1 x.2 hsc, hminl x hx, htiel x hx⟩

/-- Witness for `c5_tiebreak` at the `w` scenario. -/
theorem c5_tiebreak_witness :
    selectPartsToMerge wCtx wFl [w1, w2] = some [w1, w2] ∧
    (∃ i c, (i, c) ∈ acceptedCands wCtx wFl [w1, w2] ∧
      ([w1, w2] : List Part) = (([w1, w2] : List Part).drop i).take c.len ∧
      ∀ x : Nat × Cand, x ∈ acceptedCands wCtx wFl [w1, w2] →
        (x.2.cmax = runMaxSize ((([w1, w2] : List Part).drop x.1).take x.2.len) ∧
         x.2.cmin = runMinSize ((([w1, w2] : List Part).drop x.1).take x.2.len) ∧
         x.2.len = ((([w1, w2] : List Part).drop x.1).take x.2.len).length) ∧
        lexLt x.2 c = false ∧
        (x.2 = c → i ≤ x.1)) :=
  ⟨select_w_eval, c5_tiebreak wCtx wFl [w1, w2] [w1, w2] select_w_eval⟩

end MergeTree
